import Mathlib

/-!
Verification of the MLBlocks `MLPipeline` class
(`mlblocks/ml_pipeline/ml_pipeline.py`).

The pipeline code is embedded shallowly: Python dicts become association
lists kept in insertion order, the step objects become a structure whose
opaque primitive behaviour (`fit`, `produce`, model construction) is
recorded explicitly, exceptions become `Except`/`Option` error components
carried next to the state reached when the exception is raised, and the
side-effecting `fit`/`produce` calls made by the pipeline are recorded as
a trace of call events.
-/

namespace MLBlocks

/-- Association-list model of a Python dict: entries kept in insertion
order. A Python dict never holds two entries with one key, so every dict
the program manipulates has pairwise distinct keys; on that domain the
operations below agree with Python's. -/
abbrev Dict (α β : Type) : Type := List (α × β)

/-- Python `d[k]` as a total lookup returning an `Option`: the value of
the entry with key `k`, if any. -/
def Dict.get? {α β : Type} [DecidableEq α] : Dict α β → α → Option β
  | [], _ => none
  | e :: rest, k => if e.1 = k then some e.2 else Dict.get? rest k

/-- Python `d[k] = v`: overwrite the value in place when `k` is present
(keeping the entry's position, as Python dicts do), else append a new
entry at the end. -/
def Dict.set {α β : Type} [DecidableEq α] : Dict α β → α → β → Dict α β
  | [], k, v => [(k, v)]
  | e :: rest, k, v => if e.1 = k then (k, v) :: rest else e :: Dict.set rest k v

/-- A tunable hyperparameter (`MLHyperparam`): a value object carrying the
owning step's name, the parameter name, and the current value. -/
structure MLHyperparam (V : Type) where
  step_name : String
  param_name : String
  value : V
deriving DecidableEq

/-- Modelled from the spec: the underlying primitive instance is opaque
(spec §1, §6), so a model records only its class identity and the
constructor configuration it last received. `fromFull` records a rebuild
from the full fixed+tunable set (the fixed-hyperparameter path);
`fromTunable` records `model.__class__(**tunable_hyperparams)` (the
tunable-hyperparameter path, which passes the tunable map only);
`base` stands for whatever configuration the step was first built with. -/
inductive ModelConfig (V : Type) where
  | base (tag : Nat)
  | fromTunable (kwargs : Dict String (MLHyperparam V))
  | fromFull (fixed : Dict String V) (tunable : Dict String (MLHyperparam V))
deriving DecidableEq

/-- The opaque underlying model: its class (preserved by
`model.__class__(...)` rebuilds) and the configuration it last received. -/
structure Model (V : Type) where
  cls : String
  config : ModelConfig V
deriving DecidableEq

/-- Modelled from the spec: the step class (`MLBlock`, spec §2/§3/§6) is
not under `src/`. A step owns a name, a fixed-hyperparameter map, a
tunable-hyperparameter map (keyed by parameter name) and its model, and
exposes `fit` (side-effect only; the pipeline's calls to it are recorded
as trace events), `produce` (a pure transform of the data) and
`update_model`. -/
structure MLBlock (D Y V : Type) where
  name : String
  fixed_hyperparams : Dict String V
  tunable_hyperparams : Dict String (MLHyperparam V)
  model : Model V
  produce : D → D

/-- Modelled from the spec: `step.update_model(fixed, tunable)` (spec
§4.2, §6) reconstructs the step's model from the full hyperparameter set
handed to it, preserving the model class. -/
def MLBlock.update_model {D Y V : Type} (st : MLBlock D Y V)
    (fixed : Dict String V) (tunable : Dict String (MLHyperparam V)) :
    MLBlock D Y V :=
  { st with model := { cls := st.model.cls, config := ModelConfig.fromFull fixed tunable } }

/-- One observable call made by the pipeline into a step: either
`step.fit(data, labels, **kwargs)` or `step.produce(data)`. -/
inductive CallEvent (D Y V : Type) where
  | fitCall (step_name : String) (data : D) (labels : Y) (kwargs : Dict String V)
  | produceCall (step_name : String) (data : D)
deriving DecidableEq

deriving instance DecidableEq for Except

/-- `MLPipeline`: the name-to-step mapping and the ordered dataflow. -/
structure MLPipeline (D Y V : Type) where
  steps_dict : Dict String (MLBlock D Y V)
  dataflow : List String

/-- `MLPipeline.__init__`: build the name-to-step mapping from the step
list (a dict comprehension over `[(step.name, step) for step in steps]`,
i.e. sequential insertion, so a later step with a duplicate name
overwrites an earlier one), and default the dataflow to the
declaration-order list of step names when none is given. -/
def MLPipeline.init {D Y V : Type} (steps : List (MLBlock D Y V))
    (dataflow : Option (List String)) : MLPipeline D Y V :=
  { steps_dict := steps.foldl (fun d st => Dict.set d st.name st) [],
    dataflow :=
      match dataflow with
      | some df => df
      | none => steps.map (fun st => st.name) }

/-- The loop of `update_fixed_hyperparams`, iterating the input dict's
keys in insertion order. A missing step name raises `KeyError`, returned
as `some step_name` together with the state already reached (Python's
exception leaves the earlier mutations in place). -/
def updateFixedLoop {D Y V : Type} :
    MLPipeline D Y V → List ((String × String) × V) →
    MLPipeline D Y V × Option String
  | p, [] => (p, none)
  | p, ((step_name, hyperparam_name), v) :: rest =>
    match Dict.get? p.steps_dict step_name with
    | none => (p, some step_name)
    | some step =>
      let step1 : MLBlock D Y V :=
        { step with fixed_hyperparams := Dict.set step.fixed_hyperparams hyperparam_name v }
      let step2 := MLBlock.update_model step1 step1.fixed_hyperparams step1.tunable_hyperparams
      updateFixedLoop { p with steps_dict := Dict.set p.steps_dict step_name step2 } rest

/-- `MLPipeline.update_fixed_hyperparams`: for each `(step name, param
name) ↦ value` entry, look the step up (a missing name raises `KeyError`),
overwrite the fixed-hyperparameter entry and immediately call
`step.update_model(step.fixed_hyperparams, step.tunable_hyperparams)`. -/
def MLPipeline.update_fixed_hyperparams {D Y V : Type} (p : MLPipeline D Y V)
    (fixed_hyperparams : List ((String × String) × V)) :
    MLPipeline D Y V × Option String :=
  updateFixedLoop p fixed_hyperparams

/-- The overwrite loop of `update_tunable_hyperparams`: each hyperparam
object is written into its step's tunable map under its `param_name`.
A missing step name raises `KeyError`, returned with the state reached. -/
def updateTunableLoop {D Y V : Type} :
    MLPipeline D Y V → List (MLHyperparam V) → MLPipeline D Y V × Option String
  | p, [] => (p, none)
  | p, hp :: rest =>
    match Dict.get? p.steps_dict hp.step_name with
    | none => (p, some hp.step_name)
    | some step =>
      updateTunableLoop
        { p with steps_dict :=
            (Dict.set p.steps_dict hp.step_name
              { step with tunable_hyperparams := Dict.set step.tunable_hyperparams hp.param_name hp }) }
        rest

/-- `step.model = step.model.__class__(**step.tunable_hyperparams)`: the
model is rebuilt from scratch from the tunable map only, its class kept. -/
def rebuildStep {D Y V : Type} (st : MLBlock D Y V) : MLBlock D Y V :=
  { st with model := { cls := st.model.cls, config := ModelConfig.fromTunable st.tunable_hyperparams } }

/-- The second loop of `update_tunable_hyperparams`: every step of
`steps_dict` has its model rebuilt from its current tunable map. -/
def rebuildAllModels {D Y V : Type} (p : MLPipeline D Y V) : MLPipeline D Y V :=
  { p with steps_dict := p.steps_dict.map (fun e => (e.1, rebuildStep e.2)) }

/-- `MLPipeline.update_tunable_hyperparams`: first overwrite each given
hyperparameter into its step's tunable map; only after all overwrites,
rebuild every step's model from its tunable map. A `KeyError` in the
first loop aborts before any rebuild. -/
def MLPipeline.update_tunable_hyperparams {D Y V : Type} (p : MLPipeline D Y V)
    (tunable_hyperparams : List (MLHyperparam V)) :
    MLPipeline D Y V × Option String :=
  match updateTunableLoop p tunable_hyperparams with
  | (p1, some e) => (p1, some e)
  | (p1, none) => (rebuildAllModels p1, none)

/-- `MLPipeline.get_fixed_hyperparams`: a dict keyed by
`(step.name, fixed hyperparam name)` built by iterating the steps and,
inside each, the step's fixed map, in insertion order. -/
def MLPipeline.get_fixed_hyperparams {D Y V : Type} (p : MLPipeline D Y V) :
    Dict (String × String) V :=
  p.steps_dict.foldl
    (fun acc e =>
      e.2.fixed_hyperparams.foldl
        (fun acc2 hv => Dict.set acc2 (e.2.name, hv.1) hv.2) acc)
    []

/-- `MLPipeline.get_tunable_hyperparams`: concatenate
`list(step.tunable_hyperparams.values())` over the steps in order. -/
def MLPipeline.get_tunable_hyperparams {D Y V : Type} (p : MLPipeline D Y V) :
    List (MLHyperparam V) :=
  p.steps_dict.foldl (fun acc e => acc ++ e.2.tunable_hyperparams.map Prod.snd) []

/-- `hp.value = hyperparam_dict[hp.param_name]` when present: the in-place
value update performed by `set_from_hyperparam_dict`. -/
def applyFlatValue {V : Type} (d : Dict String V) (hp : MLHyperparam V) :
    MLHyperparam V :=
  match Dict.get? d hp.param_name with
  | some v => { hp with value := v }
  | none => hp

/-- `MLPipeline.set_from_hyperparam_dict`: collect all tunable
hyperparameters, overwrite the value of each whose `param_name` is a key
of the input, then call `update_tunable_hyperparams` with the whole list.
Python mutates the hyperparameter objects in place, and those objects are
the very values stored in each step's tunable map, so the value-semantics
embedding applies the same update both to the collected list and, through
that aliasing, to every step's tunable map. -/
def MLPipeline.set_from_hyperparam_dict {D Y V : Type} (p : MLPipeline D Y V)
    (hyperparam_dict : Dict String V) : MLPipeline D Y V × Option String :=
  let updated : MLPipeline D Y V :=
    { p with steps_dict := p.steps_dict.map (fun e =>
        (e.1, { e.2 with tunable_hyperparams :=
          e.2.tunable_hyperparams.map (fun hv => (hv.1, applyFlatValue hyperparam_dict hv.2)) })) }
  MLPipeline.update_tunable_hyperparams updated
    ((MLPipeline.get_tunable_hyperparams p).map (applyFlatValue hyperparam_dict))

/-- `param_dict = \x7bstep_name: \x7b\x7d for step_name in self.dataflow\x7d`:
one empty kwargs dict per dataflow name. -/
def initParamDict {V : Type} (dataflow : List String) :
    Dict String (Dict String V) :=
  dataflow.foldl (fun acc n => Dict.set acc n []) []

/-- The partition loop of `fit`: `param_dict[name][param] = value` for each
`((name, param), value)` of `fit_params` in insertion order; a name absent
from `param_dict` (i.e. from the dataflow) raises `KeyError name`. -/
def fitParamLoop {V : Type} :
    Dict String (Dict String V) → List ((String × String) × V) →
    Except String (Dict String (Dict String V))
  | pd, [] => Except.ok pd
  | pd, ((name, param), v) :: rest =>
    match Dict.get? pd name with
    | none => Except.error name
    | some inner => fitParamLoop (Dict.set pd name (Dict.set inner param v)) rest

/-- The execution loop of `fit`: for each dataflow name, look the step up
(`KeyError` if absent), call `step.fit(transformed_data, y,
**param_dict[step_name])`, then replace the transformed data by
`step.produce(transformed_data)`. The calls are recorded as trace
events; Python's `fit` returns `None`, so the trace is the result. -/
def fitLoop {D Y V : Type} (p : MLPipeline D Y V) :
    List String → Dict String (Dict String V) → D → Y →
    List (CallEvent D Y V) → Except String (List (CallEvent D Y V))
  | [], _, _, _, trace => Except.ok trace
  | step_name :: rest, pd, data, y, trace =>
    match Dict.get? p.steps_dict step_name with
    | none => Except.error step_name
    | some step =>
      match Dict.get? pd step_name with
      | none => Except.error step_name
      | some kwargs =>
        fitLoop p rest pd (step.produce data) y
          (trace ++ [CallEvent.fitCall step_name data y kwargs,
                     CallEvent.produceCall step_name data])

/-- `MLPipeline.fit`: partition `fit_params` by step name over the
dataflow names, then run the dataflow, fitting and producing at each
step. -/
def MLPipeline.fit {D Y V : Type} (p : MLPipeline D Y V) (x : D) (y : Y)
    (fit_params : List ((String × String) × V)) :
    Except String (List (CallEvent D Y V)) :=
  match fitParamLoop (initParamDict p.dataflow) fit_params with
  | Except.error e => Except.error e
  | Except.ok pd => fitLoop p p.dataflow pd x y []

/-- The loop of `predict`: for each dataflow name, look the step up
(`KeyError` if absent) and replace the transformed data by
`step.produce(transformed_data)`, recording the call. -/
def predictLoop {D Y V : Type} (p : MLPipeline D Y V) :
    List String → D → List (CallEvent D Y V) →
    Except String (List (CallEvent D Y V) × D)
  | [], data, trace => Except.ok (trace, data)
  | step_name :: rest, data, trace =>
    match Dict.get? p.steps_dict step_name with
    | none => Except.error step_name
    | some step =>
      predictLoop p rest (step.produce data)
        (trace ++ [CallEvent.produceCall step_name data])

/-- `MLPipeline.predict`: thread the input through the dataflow's produce
calls and return the final transformed value (with the call trace). -/
def MLPipeline.predict {D Y V : Type} (p : MLPipeline D Y V) (x : D) :
    Except String (List (CallEvent D Y V) × D) :=
  predictLoop p p.dataflow x []

/-- The key synthesized by `to_dict`:
`'\x7b0\x7d__\x7b1\x7d'.format(hyperparam.step_name, hyperparam.param_name)`. -/
def hyperparamKey {V : Type} (hp : MLHyperparam V) : String :=
  hp.step_name ++ "__" ++ hp.param_name

/-- `MLPipeline.to_dict`: a dict comprehension mapping each tunable
hyperparameter's synthesized `step__param` key to its value. -/
def MLPipeline.to_dict {D Y V : Type} (p : MLPipeline D Y V) : Dict String V :=
  (MLPipeline.get_tunable_hyperparams p).foldl
    (fun acc hp => Dict.set acc (hyperparamKey hp) hp.value) []

/-- The produce function of the step a dataflow name resolves to
(identity when the name is absent; the theorems below only use it under
a hypothesis making every lookup succeed). -/
def stepProduce {D Y V : Type} (p : MLPipeline D Y V) (n : String) (d : D) : D :=
  match Dict.get? p.steps_dict n with
  | some st => st.produce d
  | none => d

/-- The consistency invariants every pipeline built by the constructor
from parser-produced steps satisfies: step-map keys are distinct and name
the step stored under them, every per-step dict has distinct keys, and
each tunable hyperparameter records the step and parameter name it is
stored under. -/
def MLPipeline.WellFormed {D Y V : Type} (p : MLPipeline D Y V) : Prop :=
  (p.steps_dict.map Prod.fst).Nodup ∧
  ∀ e ∈ p.steps_dict,
    e.2.name = e.1 ∧
    (e.2.fixed_hyperparams.map Prod.fst).Nodup ∧
    (e.2.tunable_hyperparams.map Prod.fst).Nodup ∧
    ∀ hv ∈ e.2.tunable_hyperparams, hv.2.step_name = e.1 ∧ hv.2.param_name = hv.1

instance instWellFormedDecidable {D Y V : Type} (p : MLPipeline D Y V) :
    Decidable (MLPipeline.WellFormed p) := by
  unfold MLPipeline.WellFormed
  exact inferInstance

/-- Specification-side description, used in theorem statements: the
per-step keyword-argument set that the `fit_params` partition assigns to
step `n` (entries for `n`, in insertion order, over an empty dict). -/
def fitParamsFor {V : Type} (fit_params : List ((String × String) × V))
    (n : String) : Dict String V :=
  (fit_params.filter (fun e => decide (e.1.1 = n))).foldl
    (fun d e => Dict.set d e.1.2 e.2) []

/-- Specification-side description, used in theorem statements: the
tunable map of step `n` after all the overwrites of
`update_tunable_hyperparams` (the given hyperparameters targeting `n`,
applied in order). -/
def overwriteTunables {V : Type} (hps : List (MLHyperparam V)) (n : String)
    (d : Dict String (MLHyperparam V)) : Dict String (MLHyperparam V) :=
  (hps.filter (fun hp => decide (hp.step_name = n))).foldl
    (fun d2 hp => Dict.set d2 hp.param_name hp) d

/-- Specification-side description, used in theorem statements: a step
after `set_from_hyperparam_dict`, with every tunable value whose
parameter name is a key of the input overwritten and the model rebuilt
from the resulting tunable map only, class preserved. -/
def flatUpdateStep {D Y V : Type} (d : Dict String V) (st : MLBlock D Y V) :
    MLBlock D Y V :=
  { st with
    tunable_hyperparams :=
      st.tunable_hyperparams.map (fun hv => (hv.1, applyFlatValue d hv.2)),
    model :=
      { cls := st.model.cls,
        config := ModelConfig.fromTunable
          (st.tunable_hyperparams.map (fun hv => (hv.1, applyFlatValue d hv.2))) } }

/-- Fixture: step `"alpha"` with produce `x + 1`, one fixed and two
tunable hyperparameters. -/
def stepA : MLBlock Int Int Int :=
  { name := "alpha", fixed_hyperparams := [("fa", 10)],
    tunable_hyperparams :=
      [("lr", { step_name := "alpha", param_name := "lr", value := 5 }),
       ("k", { step_name := "alpha", param_name := "k", value := 3 })],
    model := { cls := "ClsA", config := ModelConfig.base 0 },
    produce := fun x => x + 1 }

/-- Fixture: step `"beta"` with produce `x * 2` and one tunable
hyperparameter that shares the name `"lr"` with `"alpha"`'s. -/
def stepB : MLBlock Int Int Int :=
  { name := "beta", fixed_hyperparams := [("fb", 20)],
    tunable_hyperparams :=
      [("lr", { step_name := "beta", param_name := "lr", value := 7 })],
    model := { cls := "ClsB", config := ModelConfig.base 1 },
    produce := fun x => x * 2 }

/-- Fixture: the two-step pipeline `alpha ; beta` with the default
declaration-order dataflow. -/
def pAB : MLPipeline Int Int Int := MLPipeline.init [stepA, stepB] none

/-- Fixture: the same two steps but with an explicit dataflow that omits
`"beta"` even though it is present in `steps_dict`. -/
def pOnlyAlpha : MLPipeline Int Int Int :=
  MLPipeline.init [stepA, stepB] (some ["alpha"])

/-- Fixture: a step named `"a__b"` with tunable parameter `"c"`, whose
`to_dict` key collides with the one of [`stepCollideB`]. -/
def stepCollideA : MLBlock Int Int Int :=
  { name := "a__b", fixed_hyperparams := [],
    tunable_hyperparams :=
      [("c", { step_name := "a__b", param_name := "c", value := 1 })],
    model := { cls := "C1", config := ModelConfig.base 0 },
    produce := fun x => x }

/-- Fixture: a step named `"a"` with tunable parameter `"b__c"`: its
`to_dict` key `"a__b__c"` equals [`stepCollideA`]'s. -/
def stepCollideB : MLBlock Int Int Int :=
  { name := "a", fixed_hyperparams := [],
    tunable_hyperparams :=
      [("b__c", { step_name := "a", param_name := "b__c", value := 2 })],
    model := { cls := "C2", config := ModelConfig.base 1 },
    produce := fun x => x }

/-- Fixture: pipeline whose two tunable hyperparameters synthesize the
same `to_dict` key `"a__b__c"`. -/
def pCollide : MLPipeline Int Int Int :=
  MLPipeline.init [stepCollideA, stepCollideB] none

/-! ### Dictionary lemmas -/

theorem Dict.get?_set {α β : Type} [DecidableEq α] (d : Dict α β) (k : α)
    (v : β) (m : α) :
    Dict.get? (Dict.set d k v) m = if k = m then some v else Dict.get? d m := by
  induction d with
  | nil => simp [Dict.get?, Dict.set]
  | cons e rest ih =>
    simp only [Dict.set]
    by_cases h1 : e.1 = k
    · simp only [if_pos h1]
      by_cases h2 : k = m
      · simp [Dict.get?, h2]
      · have h3 : ¬ e.1 = m := fun hc => h2 (h1 ▸ hc)
        simp [Dict.get?, h2, h3]
    · simp only [if_neg h1]
      by_cases h2 : e.1 = m
      · have h3 : ¬ k = m := fun hc => h1 (h2 ▸ hc ▸ rfl)
        simp [Dict.get?, h2, h3]
      · simp [Dict.get?, h2, ih]

theorem Dict.get?_eq_none_iff {α β : Type} [DecidableEq α] (d : Dict α β)
    (k : α) : Dict.get? d k = none ↔ k ∉ d.map Prod.fst := by
  induction d with
  | nil => simp [Dict.get?]
  | cons e rest ih =>
    by_cases h : e.1 = k
    · subst h
      simp [Dict.get?]
    · have h2 : ¬ k = e.1 := fun hc => h hc.symm
      simp [Dict.get?, h, h2, ih]

theorem Dict.get?_of_mem_nodup {α β : Type} [DecidableEq α] {d : Dict α β}
    {e : α × β} (hn : (d.map Prod.fst).Nodup) (he : e ∈ d) :
    Dict.get? d e.1 = some e.2 := by
  induction d with
  | nil => simp at he
  | cons a rest ih =>
    rcases List.mem_cons.mp he with h | h
    · subst h
      simp [Dict.get?]
    · have ha : a.1 ∉ rest.map Prod.fst := (List.nodup_cons.mp hn).1
      have hne : ¬ a.1 = e.1 := by
        intro hc
        exact ha (hc ▸ List.mem_map_of_mem Prod.fst h)
      simp only [Dict.get?, if_neg hne]
      exact ih (List.nodup_cons.mp hn).2 h

theorem Dict.get?_some_mem {α β : Type} [DecidableEq α] {d : Dict α β}
    {k : α} {v : β} (h : Dict.get? d k = some v) : (k, v) ∈ d := by
  induction d with
  | nil => simp [Dict.get?] at h
  | cons e rest ih =>
    by_cases he : e.1 = k
    · simp only [Dict.get?, if_pos he] at h
      have h2 : e.2 = v := Option.some.inj h
      have hkv : (k, v) = e := by
        rw [← he, ← h2]
      rw [hkv]
      exact List.mem_cons_self e rest
    · simp only [Dict.get?, if_neg he] at h
      exact List.mem_cons_of_mem _ (ih h)

theorem Dict.keys_set {α β : Type} [DecidableEq α] (d : Dict α β) (k : α)
    (v : β) :
    (Dict.set d k v).map Prod.fst =
      if k ∈ d.map Prod.fst then d.map Prod.fst
      else d.map Prod.fst ++ [k] := by
  induction d with
  | nil => simp [Dict.set]
  | cons e rest ih =>
    simp only [Dict.set]
    by_cases h : e.1 = k
    · subst h
      simp
    · have h2 : ¬ k = e.1 := fun hc => h hc.symm
      by_cases h3 : k ∈ rest.map Prod.fst <;>
        simp [h, h2, h3, ih]

theorem Dict.keys_set_nodup {α β : Type} [DecidableEq α] {d : Dict α β}
    (k : α) (v : β) (hn : (d.map Prod.fst).Nodup) :
    ((Dict.set d k v).map Prod.fst).Nodup := by
  rw [Dict.keys_set]
  by_cases h : k ∈ d.map Prod.fst
  · simpa [h] using hn
  · simp [h, List.nodup_append, hn]

theorem Dict.set_eq_self_of_get? {α β : Type} [DecidableEq α] {d : Dict α β}
    {k : α} {v : β} (hn : (d.map Prod.fst).Nodup)
    (h : Dict.get? d k = some v) : Dict.set d k v = d := by
  induction d with
  | nil => simp [Dict.get?] at h
  | cons e rest ih =>
    by_cases he : e.1 = k
    · simp only [Dict.get?, if_pos he] at h
      have h2 : e.2 = v := Option.some.inj h
      have hkv : (k, v) = e := by
        rw [← he, ← h2]
      simp [Dict.set, he, hkv]
    · simp only [Dict.get?, if_neg he] at h
      simp [Dict.set, he, ih (List.nodup_cons.mp hn).2 h]

theorem Dict.get?_map_values {α β γ : Type} [DecidableEq α] (g : α → β → γ)
    (d : Dict α β) (k : α) :
    Dict.get? (d.map (fun e => (e.1, g e.1 e.2))) k =
      (Dict.get? d k).map (g k) := by
  induction d with
  | nil => simp [Dict.get?]
  | cons e rest ih =>
    by_cases h : e.1 = k
    · subst h
      simp [Dict.get?]
    · simp [Dict.get?, h, ih]

theorem Dict.get?_eq_find? {α β : Type} [DecidableEq α] (d : Dict α β)
    (k : α) :
    Dict.get? d k = (d.find? (fun e => decide (e.1 = k))).map Prod.snd := by
  induction d with
  | nil => simp [Dict.get?]
  | cons e rest ih =>
    by_cases h : e.1 = k <;> simp [Dict.get?, List.find?, h, ih]

theorem Dict.get?_foldl_set {α β γ : Type} [DecidableEq α] (key : γ → α)
    (val : γ → β) (l : List γ) (d : Dict α β) (k : α) :
    Dict.get? (l.foldl (fun acc e => Dict.set acc (key e) (val e)) d) k =
      Option.or ((l.reverse.find? (fun e => decide (key e = k))).map val)
        (Dict.get? d k) := by
  induction l generalizing d with
  | nil => simp
  | cons e rest ih =>
    rw [List.foldl_cons, ih, List.reverse_cons, List.find?_append]
    rcases hf : rest.reverse.find? (fun e => decide (key e = k)) with _ | a
    · by_cases hk : key e = k <;>
        simp [List.find?, hk, Dict.get?_set]
    · simp [Option.or]

theorem find?_reverse_of_nodup {γ α : Type} [DecidableEq α] (key : γ → α)
    {l : List γ} (k : α) (h : (l.map key).Nodup) :
    l.reverse.find? (fun e => decide (key e = k)) =
      l.find? (fun e => decide (key e = k)) := by
  induction l with
  | nil => rfl
  | cons e rest ih =>
    have h2 : (∀ x ∈ rest, ¬ key x = key e) ∧ (List.map key rest).Nodup := by
      simpa using h
    obtain ⟨hm, hrest⟩ := h2
    rw [List.reverse_cons, List.find?_append, ih hrest]
    by_cases hk : key e = k
    · have hnone : rest.find? (fun x => decide (key x = k)) = none := by
        rw [List.find?_eq_none]
        intro x hx
        simp only [decide_eq_true_eq]
        intro hc
        exact hm x hx (hc.trans hk.symm)
      rw [hnone, List.find?_cons_of_pos _ (by simp [hk]),
        List.find?_cons_of_pos _ (by simp [hk])]
      rfl
    · rw [List.find?_cons_of_neg _ (by simp [hk]),
        List.find?_cons_of_neg _ (by simp [hk])]
      cases rest.find? (fun x => decide (key x = k)) <;> rfl

theorem find?_key_of_mem_nodup {γ α : Type} [DecidableEq α] (key : γ → α)
    {l : List γ} {e : γ} (h : (l.map key).Nodup) (he : e ∈ l) :
    l.find? (fun x => decide (key x = key e)) = some e := by
  induction l with
  | nil => simp at he
  | cons a rest ih =>
    rcases List.mem_cons.mp he with h1 | h1
    · subst h1
      rw [List.find?_cons_of_pos _ (by simp)]
    · have h2 : (∀ x ∈ rest, ¬ key x = key a) ∧ (List.map key rest).Nodup := by
        simpa using h
      obtain ⟨hm, hrest⟩ := h2
      have hne : ¬ key a = key e := fun hc => hm e h1 hc.symm
      rw [List.find?_cons_of_neg _ (by simp [hne])]
      exact ih hrest h1

/-! ### The partition phase of `fit` -/

theorem get?_initParamDictAux {V : Type} (l : List String)
    (acc : Dict String (Dict String V)) (n : String) :
    Dict.get? (l.foldl (fun acc2 m => Dict.set acc2 m []) acc) n =
      if n ∈ l then some [] else Dict.get? acc n := by
  induction l generalizing acc with
  | nil => simp
  | cons m rest ih =>
    rw [List.foldl_cons, ih]
    by_cases h1 : n ∈ rest
    · simp [h1]
    · by_cases h2 : m = n
      · simp [h1, h2, Dict.get?_set]
      · have h3 : ¬ n = m := fun hc => h2 hc.symm
        simp [h1, h2, h3, Dict.get?_set]

theorem get?_initParamDict {V : Type} (dataflow : List String) (n : String) :
    Dict.get? (@initParamDict V dataflow) n =
      if n ∈ dataflow then some [] else none := by
  rw [initParamDict, get?_initParamDictAux]
  simp [Dict.get?]

theorem fitParamLoop_append {V : Type} (l1 l2 : List ((String × String) × V))
    (pd : Dict String (Dict String V)) :
    fitParamLoop pd (l1 ++ l2) =
      match fitParamLoop pd l1 with
      | Except.ok pd2 => fitParamLoop pd2 l2
      | Except.error e => Except.error e := by
  induction l1 generalizing pd with
  | nil => simp [fitParamLoop]
  | cons e rest ih =>
    obtain ⟨⟨name, param⟩, v⟩ := e
    rw [List.cons_append]
    simp only [fitParamLoop]
    cases Dict.get? pd name with
    | none => rfl
    | some inner => exact ih _

theorem fitParamLoop_ok {V : Type} :
    ∀ (fps : List ((String × String) × V)) (pd : Dict String (Dict String V)),
    (∀ e ∈ fps, (Dict.get? pd e.1.1).isSome) →
    ∃ pd2, fitParamLoop pd fps = Except.ok pd2 ∧
      ∀ n, Dict.get? pd2 n = (Dict.get? pd n).map
        (fun d0 => (fps.filter (fun e => decide (e.1.1 = n))).foldl
          (fun d e => Dict.set d e.1.2 e.2) d0) := by
  intro fps
  induction fps with
  | nil =>
    intro pd _
    refine ⟨pd, rfl, fun n => ?_⟩
    cases Dict.get? pd n <;> simp
  | cons e rest ih =>
    intro pd h
    obtain ⟨⟨name, param⟩, v⟩ := e
    have hh : (Dict.get? pd name).isSome := h _ (List.mem_cons_self _ _)
    obtain ⟨inner, hg⟩ := Option.isSome_iff_exists.mp hh
    have hrest : ∀ e2 ∈ rest,
        (Dict.get? (Dict.set pd name (Dict.set inner param v)) e2.1.1).isSome := by
      intro e2 he2
      rw [Dict.get?_set]
      by_cases hc : name = e2.1.1
      · simp [hc]
      · simp only [if_neg hc]
        exact h e2 (List.mem_cons_of_mem _ he2)
    obtain ⟨pd2, heq, hchar⟩ := ih _ hrest
    refine ⟨pd2, ?_, fun n => ?_⟩
    · simp only [fitParamLoop, hg]
      exact heq
    · rw [hchar n, Dict.get?_set]
      by_cases hc : name = n
      · subst hc
        rw [hg]
        simp [List.filter_cons]
      · simp only [if_neg hc]
        have hc2 : ¬ ((name, param), v).1.1 = n := hc
        cases Dict.get? pd n <;> simp [List.filter_cons, hc2]

/-! ### The execution loops of `predict` and `fit` -/

theorem predictLoop_ok {D Y V : Type} (p : MLPipeline D Y V) :
    ∀ (flow : List String) (x : D) (tr : List (CallEvent D Y V)),
    (∀ n ∈ flow, (Dict.get? p.steps_dict n).isSome) →
    predictLoop p flow x tr = Except.ok
      (tr ++ (flow.zip (List.scanl (fun d n => stepProduce p n d) x flow)).map
        (fun q => CallEvent.produceCall q.1 q.2),
       flow.foldl (fun d n => stepProduce p n d) x) := by
  intro flow
  induction flow with
  | nil =>
    intro x tr _
    simp [predictLoop]
  | cons n rest ih =>
    intro x tr h
    obtain ⟨st, hst⟩ := Option.isSome_iff_exists.mp (h n (List.mem_cons_self _ _))
    have hsp : stepProduce p n x = st.produce x := by
      simp [stepProduce, hst]
    simp only [predictLoop, hst]
    rw [ih (st.produce x) _ (fun m hm => h m (List.mem_cons_of_mem _ hm))]
    rw [List.scanl_cons]
    simp only [List.singleton_append, List.zip_cons_cons, List.map_cons, List.foldl_cons]
    rw [hsp]
    simp [List.append_assoc]

theorem fitLoop_ok {D Y V : Type} (p : MLPipeline D Y V)
    (fps : List ((String × String) × V)) (y : Y) :
    ∀ (flow : List String) (pd : Dict String (Dict String V)) (x : D)
      (tr : List (CallEvent D Y V)),
    (∀ n ∈ flow, (Dict.get? p.steps_dict n).isSome) →
    (∀ n ∈ flow, Dict.get? pd n = some (fitParamsFor fps n)) →
    fitLoop p flow pd x y tr = Except.ok
      (tr ++ ((flow.zip (List.scanl (fun d n => stepProduce p n d) x flow)).map
        (fun q => [CallEvent.fitCall q.1 q.2 y (fitParamsFor fps q.1),
                   CallEvent.produceCall q.1 q.2])).flatten) := by
  intro flow
  induction flow with
  | nil =>
    intro pd x tr _ _
    simp [fitLoop]
  | cons n rest ih =>
    intro pd x tr h hpd
    obtain ⟨st, hst⟩ := Option.isSome_iff_exists.mp (h n (List.mem_cons_self _ _))
    have hsp : stepProduce p n x = st.produce x := by
      simp [stepProduce, hst]
    simp only [fitLoop, hst, hpd n (List.mem_cons_self _ _)]
    rw [ih pd (st.produce x) _ (fun m hm => h m (List.mem_cons_of_mem _ hm))
      (fun m hm => hpd m (List.mem_cons_of_mem _ hm))]
    rw [List.scanl_cons]
    simp only [List.singleton_append, List.zip_cons_cons, List.map_cons, List.flatten_cons]
    rw [hsp]
    simp [List.append_assoc]

/-- Claim C1: for every pipeline and every input `x`, `predict(x)`
iterates the step names of `self.dataflow` in exactly that order, at each
step replacing the transformed data with that step's produce output on
the current transformed data (calling no fit — the trace holds produce
events only), and returns the final transformed value: `predict` is the
left fold of the steps' produce functions over the dataflow applied to
`x`. Hypothesis: every dataflow name resolves in `steps_dict`. -/
theorem predict_folds_produce_over_dataflow {D Y V : Type}
    (p : MLPipeline D Y V) (x : D)
    (h : ∀ n ∈ p.dataflow, (Dict.get? p.steps_dict n).isSome) :
    MLPipeline.predict p x = Except.ok
      ((p.dataflow.zip (List.scanl (fun d n => stepProduce p n d) x p.dataflow)).map
        (fun q => CallEvent.produceCall q.1 q.2),
       p.dataflow.foldl (fun d n => stepProduce p n d) x) := by
  unfold MLPipeline.predict
  simpa using predictLoop_ok p p.dataflow x [] h

/-- Witness for C1 on the concrete two-step pipeline [`pAB`]. -/
theorem predict_folds_produce_over_dataflow_witness :
    (∀ n ∈ pAB.dataflow, (Dict.get? pAB.steps_dict n).isSome) ∧
    MLPipeline.predict pAB 3 = Except.ok
      ((pAB.dataflow.zip (List.scanl (fun d n => stepProduce pAB n d) 3 pAB.dataflow)).map
        (fun q => CallEvent.produceCall q.1 q.2),
       pAB.dataflow.foldl (fun d n => stepProduce pAB n d) 3) :=
  ⟨by decide, predict_folds_produce_over_dataflow pAB 3 (by decide)⟩

theorem fit_eq_of_paramLoop {D Y V : Type} (p : MLPipeline D Y V) (x : D)
    (y : Y) (fps : List ((String × String) × V))
    (pd2 : Dict String (Dict String V))
    (heq : fitParamLoop (initParamDict p.dataflow) fps = Except.ok pd2) :
    MLPipeline.fit p x y fps = fitLoop p p.dataflow pd2 x y [] := by
  unfold MLPipeline.fit
  rw [heq]

theorem fit_eq_error_of_paramLoop {D Y V : Type} (p : MLPipeline D Y V)
    (x : D) (y : Y) (fps : List ((String × String) × V)) (s : String)
    (heq : fitParamLoop (initParamDict p.dataflow) fps = Except.error s) :
    MLPipeline.fit p x y fps = Except.error s := by
  unfold MLPipeline.fit
  rw [heq]

/-- Claim C2: `fit(x, y, fit_params)` first partitions `fit_params` by
step name into per-step keyword-argument sets (empty by default), then
iterates the dataflow order, at each step calling that step's fit with
the current transformed data, the unchanged labels `y` and that step's
kwargs, then replacing the transformed data with the step's produce
output on the same input and carrying it forward; consequently on the
two-step pipeline [`pAB`] (produce `x + 1` then `x * 2`), `fit` followed
by `predict(3)` returns 8. -/
theorem fit_partitions_then_fits_and_produces :
    (∀ (D Y V : Type) (p : MLPipeline D Y V) (x : D) (y : Y)
        (fps : List ((String × String) × V)),
      (∀ n ∈ p.dataflow, (Dict.get? p.steps_dict n).isSome) →
      (∀ e ∈ fps, e.1.1 ∈ p.dataflow) →
      MLPipeline.fit p x y fps = Except.ok
        (((p.dataflow.zip (List.scanl (fun d n => stepProduce p n d) x p.dataflow)).map
          (fun q => [CallEvent.fitCall q.1 q.2 y (fitParamsFor fps q.1),
                     CallEvent.produceCall q.1 q.2])).flatten)) ∧
    MLPipeline.fit pAB 3 0 [] = Except.ok
      [CallEvent.fitCall "alpha" 3 0 [], CallEvent.produceCall "alpha" 3,
       CallEvent.fitCall "beta" 4 0 [], CallEvent.produceCall "beta" 4] ∧
    MLPipeline.predict pAB 3 = Except.ok
      ([CallEvent.produceCall "alpha" 3, CallEvent.produceCall "beta" 4], 8) := by
  refine ⟨?_, by decide, by decide⟩
  intro D Y V p x y fps h1 h2
  have hinit : ∀ e ∈ fps, (Dict.get? (@initParamDict V p.dataflow) e.1.1).isSome := by
    intro e he
    rw [get?_initParamDict]
    simp [h2 e he]
  obtain ⟨pd2, heq, hchar⟩ := fitParamLoop_ok fps (@initParamDict V p.dataflow) hinit
  have hpd : ∀ n ∈ p.dataflow, Dict.get? pd2 n = some (fitParamsFor fps n) := by
    intro n hn
    rw [hchar n, get?_initParamDict]
    simp [hn, fitParamsFor]
  rw [fit_eq_of_paramLoop p x y fps pd2 heq,
    fitLoop_ok p fps y p.dataflow pd2 x [] h1 hpd]
  simp

/-- Witness for C2's general part, on [`pAB`] with a nonempty
`fit_params`. -/
theorem fit_partitions_then_fits_and_produces_witness :
    (∀ n ∈ pAB.dataflow, (Dict.get? pAB.steps_dict n).isSome) ∧
    (∀ e ∈ ([(("alpha", "w"), 9)] : List ((String × String) × Int)),
      e.1.1 ∈ pAB.dataflow) ∧
    MLPipeline.fit pAB 3 0 [(("alpha", "w"), 9)] = Except.ok
      (((pAB.dataflow.zip (List.scanl (fun d n => stepProduce pAB n d) 3 pAB.dataflow)).map
        (fun q => [CallEvent.fitCall q.1 q.2 0 (fitParamsFor [(("alpha", "w"), 9)] q.1),
                   CallEvent.produceCall q.1 q.2])).flatten) :=
  ⟨by decide, by decide,
    fit_partitions_then_fits_and_produces.1 Int Int Int pAB 3 0
      [(("alpha", "w"), 9)] (by decide) (by decide)⟩

/-- Claim C10: `fit` raises a lookup error, before any step's fit or
produce runs, whenever `fit_params` holds a key whose step name is not in
the dataflow (even a name present in `steps_dict` but omitted from an
explicit dataflow): the partition is initialized only for dataflow
names. -/
theorem fit_rejects_fit_params_outside_dataflow {D Y V : Type}
    (p : MLPipeline D Y V) (x : D) (y : Y)
    (pre post : List ((String × String) × V)) (name param : String) (v : V)
    (hpre : ∀ e2 ∈ pre, e2.1.1 ∈ p.dataflow)
    (he : name ∉ p.dataflow) :
    MLPipeline.fit p x y (pre ++ ((name, param), v) :: post) =
      Except.error name := by
  have hinit : ∀ e2 ∈ pre, (Dict.get? (@initParamDict V p.dataflow) e2.1.1).isSome := by
    intro e2 he2
    rw [get?_initParamDict]
    simp [hpre e2 he2]
  obtain ⟨pd2, heq, hchar⟩ := fitParamLoop_ok pre (@initParamDict V p.dataflow) hinit
  have hnone : Dict.get? pd2 name = none := by
    rw [hchar, get?_initParamDict]
    simp [he]
  refine fit_eq_error_of_paramLoop p x y _ name ?_
  rw [fitParamLoop_append, heq]
  show fitParamLoop pd2 (((name, param), v) :: post) = Except.error name
  simp only [fitParamLoop, hnone]

/-- Witness for C10 on [`pOnlyAlpha`]: `"beta"` is in `steps_dict` but
omitted from the explicit dataflow, and `fit` fails with its name. -/
theorem fit_rejects_fit_params_outside_dataflow_witness :
    (∀ e2 ∈ ([] : List ((String × String) × Int)), e2.1.1 ∈ pOnlyAlpha.dataflow) ∧
    ("beta" ∉ pOnlyAlpha.dataflow) ∧
    (Dict.get? pOnlyAlpha.steps_dict "beta").isSome ∧
    MLPipeline.fit pOnlyAlpha 3 0 [(("beta", "k"), 1)] = Except.error "beta" :=
  ⟨by decide, by decide, by decide,
    fit_rejects_fit_params_outside_dataflow pOnlyAlpha 3 0 [] [] "beta" "k" 1
      (by decide) (by decide)⟩

/-! ### Construction -/

theorem keys_foldl_set_nodup {α β γ : Type} [DecidableEq α] (key : γ → α)
    (val : γ → β) :
    ∀ (l : List γ) (d : Dict α β), (d.map Prod.fst).Nodup →
    ((l.foldl (fun acc e => Dict.set acc (key e) (val e)) d).map Prod.fst).Nodup := by
  intro l
  induction l with
  | nil => intro d hd; simpa using hd
  | cons e rest ih =>
    intro d hd
    rw [List.foldl_cons]
    exact ih _ (Dict.keys_set_nodup _ _ hd)

/-- Claim C8: constructing a pipeline from a step list with duplicate
names does not fail; the name-to-step mapping resolves every name to the
last step declared with it (earlier ones silently dropped, one entry per
name), and with no explicit dataflow the dataflow is the
declaration-order list of step names (duplicates included). -/
theorem init_last_write_wins {D Y V : Type} (steps : List (MLBlock D Y V))
    (n : String) :
    Dict.get? (MLPipeline.init steps none).steps_dict n =
      steps.reverse.find? (fun st => decide (st.name = n)) ∧
    ((MLPipeline.init steps none).steps_dict.map Prod.fst).Nodup ∧
    (MLPipeline.init steps none).dataflow = steps.map (fun st => st.name) := by
  refine ⟨?_, ?_, rfl⟩
  · show Dict.get? (steps.foldl (fun d st => Dict.set d st.name st) []) n = _
    rw [Dict.get?_foldl_set (fun st => st.name) (fun st => st) steps [] n]
    cases steps.reverse.find? (fun st => decide (st.name = n)) <;>
      simp [Dict.get?, Option.or]
  · exact keys_foldl_set_nodup (fun st => st.name) (fun st => st) steps [] (by simp)

/-! ### `to_dict` -/

/-- Counterexample to claim C9 as stated: on [`pCollide`] the two tunable
hyperparameters `("a__b", "c") = 1` and `("a", "b__c") = 2` synthesize
the same key `"a__b__c"`, and the later one overwrites the earlier, so
not every tunable hyperparameter is mapped to its own current value. -/
theorem to_dict_collision_counterexample :
    ¬ (∀ hp ∈ MLPipeline.get_tunable_hyperparams pCollide,
        Dict.get? (MLPipeline.to_dict pCollide) (hyperparamKey hp) = some hp.value) := by
  decide

/-- Claim C9 amended: provided the synthesized `"<step>__<param>"` keys of
the pipeline's tunable hyperparameters are pairwise distinct, `to_dict()`
returns a flat mapping whose keys are exactly those strings, each mapped
to that hyperparameter's current value (on a key collision the later
hyperparameter in traversal order overwrites the earlier one, as
[`to_dict_collision_counterexample`] shows). -/
theorem to_dict_keys_and_values {D Y V : Type} (p : MLPipeline D Y V)
    (h : ((MLPipeline.get_tunable_hyperparams p).map hyperparamKey).Nodup) :
    (∀ hp ∈ MLPipeline.get_tunable_hyperparams p,
      Dict.get? (MLPipeline.to_dict p) (hyperparamKey hp) = some hp.value) ∧
    (∀ k, (Dict.get? (MLPipeline.to_dict p) k).isSome ↔
      ∃ hp ∈ MLPipeline.get_tunable_hyperparams p, hyperparamKey hp = k) := by
  constructor
  · intro hp hmem
    unfold MLPipeline.to_dict
    rw [Dict.get?_foldl_set hyperparamKey (fun hp2 => hp2.value)
      (MLPipeline.get_tunable_hyperparams p) [] (hyperparamKey hp)]
    rw [find?_reverse_of_nodup hyperparamKey (hyperparamKey hp) h]
    rw [find?_key_of_mem_nodup hyperparamKey h hmem]
    rfl
  · intro k
    unfold MLPipeline.to_dict
    rw [Dict.get?_foldl_set hyperparamKey (fun hp2 => hp2.value)
      (MLPipeline.get_tunable_hyperparams p) [] k]
    rw [find?_reverse_of_nodup hyperparamKey k h]
    constructor
    · intro hs
      cases hf : (MLPipeline.get_tunable_hyperparams p).find?
          (fun e => decide (hyperparamKey e = k)) with
      | none => rw [hf] at hs; simp [Dict.get?, Option.or] at hs
      | some a =>
        refine ⟨a, List.mem_of_find?_eq_some hf, ?_⟩
        have := List.find?_some hf
        simpa using this
    · rintro ⟨hp, hmem, rfl⟩
      rw [find?_key_of_mem_nodup hyperparamKey h hmem]
      rfl

/-- Witness for the amended C9 on [`pAB`], whose three synthesized keys
are pairwise distinct. -/
theorem to_dict_keys_and_values_witness :
    ((MLPipeline.get_tunable_hyperparams pAB).map hyperparamKey).Nodup ∧
    (∀ hp ∈ MLPipeline.get_tunable_hyperparams pAB,
      Dict.get? (MLPipeline.to_dict pAB) (hyperparamKey hp) = some hp.value) ∧
    (∀ k, (Dict.get? (MLPipeline.to_dict pAB) k).isSome ↔
      ∃ hp ∈ MLPipeline.get_tunable_hyperparams pAB, hyperparamKey hp = k) :=
  ⟨by decide, (to_dict_keys_and_values pAB (by decide)).1,
    (to_dict_keys_and_values pAB (by decide)).2⟩

/-! ### Tunable hyperparameter updates -/

theorem get?_rebuildAllModels {D Y V : Type} (p : MLPipeline D Y V)
    (n : String) :
    Dict.get? (rebuildAllModels p).steps_dict n =
      (Dict.get? p.steps_dict n).map rebuildStep := by
  show Dict.get? (p.steps_dict.map (fun e => (e.1, rebuildStep e.2))) n = _
  have := Dict.get?_map_values (fun _ st => rebuildStep st) p.steps_dict n
  simpa using this

theorem updateTunableLoop_ok {D Y V : Type} :
    ∀ (hps : List (MLHyperparam V)) (p : MLPipeline D Y V),
    (∀ hp ∈ hps, (Dict.get? p.steps_dict hp.step_name).isSome) →
    ∃ q, updateTunableLoop p hps = (q, none) ∧
      q.dataflow = p.dataflow ∧
      ∀ n, Dict.get? q.steps_dict n = (Dict.get? p.steps_dict n).map
        (fun st => { st with
          tunable_hyperparams := overwriteTunables hps n st.tunable_hyperparams }) := by
  intro hps
  induction hps with
  | nil =>
    intro p _
    refine ⟨p, rfl, rfl, fun n => ?_⟩
    cases Dict.get? p.steps_dict n <;> simp [overwriteTunables]
  | cons hp rest ih =>
    intro p h
    obtain ⟨st, hst⟩ := Option.isSome_iff_exists.mp (h hp (List.mem_cons_self _ _))
    have hrest : ∀ hp2 ∈ rest,
        (Dict.get? (Dict.set p.steps_dict hp.step_name
          { st with tunable_hyperparams :=
              Dict.set st.tunable_hyperparams hp.param_name hp }) hp2.step_name).isSome := by
      intro hp2 hm
      rw [Dict.get?_set]
      by_cases hc : hp.step_name = hp2.step_name
      · simp [hc]
      · simp only [if_neg hc]
        exact h hp2 (List.mem_cons_of_mem _ hm)
    obtain ⟨q, heq, hdf, hchar⟩ :=
      ih { p with steps_dict :=
            (Dict.set p.steps_dict hp.step_name
              { st with tunable_hyperparams :=
                  Dict.set st.tunable_hyperparams hp.param_name hp }) } hrest
    refine ⟨q, ?_, hdf, fun n => ?_⟩
    · simp only [updateTunableLoop, hst]
      exact heq
    · rw [hchar n]
      show (Dict.get? (Dict.set p.steps_dict hp.step_name _) n).map _ = _
      rw [Dict.get?_set]
      by_cases hc : hp.step_name = n
      · rw [if_pos hc, ← hc, hst]
        simp only [Option.map_some']
        unfold overwriteTunables
        rw [List.filter_cons, if_pos (by simp)]
        rfl
      · rw [if_neg hc]
        unfold overwriteTunables
        rw [List.filter_cons, if_neg (by simp [hc])]

/-- Claim C3: `update_tunable_hyperparams(hps)` first applies, for each
given hyperparameter, the overwrite of the entry keyed by its
`param_name` in the tunable map of the step it names, and only after all
overwrites rebuilds the model of every step of the pipeline (updated or
not) from that step's post-overwrite tunable map only — the class is
preserved and the fixed hyperparameters are not passed to this rebuild
(the configuration is `fromTunable`, not `fromFull`). Hypothesis: every
given hyperparameter names a step present in `steps_dict`. -/
theorem update_tunable_overwrites_then_rebuilds_all {D Y V : Type}
    (p : MLPipeline D Y V) (hps : List (MLHyperparam V))
    (h : ∀ hp ∈ hps, (Dict.get? p.steps_dict hp.step_name).isSome) :
    ∃ q, MLPipeline.update_tunable_hyperparams p hps = (q, none) ∧
      q.dataflow = p.dataflow ∧
      ∀ n, Dict.get? q.steps_dict n = (Dict.get? p.steps_dict n).map
        (fun st => { st with
          tunable_hyperparams := overwriteTunables hps n st.tunable_hyperparams,
          model := { cls := st.model.cls,
                     config := ModelConfig.fromTunable
                       (overwriteTunables hps n st.tunable_hyperparams) } }) := by
  obtain ⟨q0, heq, hdf, hchar⟩ := updateTunableLoop_ok hps p h
  refine ⟨rebuildAllModels q0, ?_, hdf, fun n => ?_⟩
  · unfold MLPipeline.update_tunable_hyperparams
    rw [heq]
  · rw [get?_rebuildAllModels, hchar n]
    cases Dict.get? p.steps_dict n <;> rfl

/-- Witness for C3 on [`pAB`], updating `"beta"`'s `"lr"`. -/
theorem update_tunable_overwrites_then_rebuilds_all_witness :
    (∀ hp ∈ [({ step_name := "beta", param_name := "lr", value := 100 } : MLHyperparam Int)],
      (Dict.get? pAB.steps_dict hp.step_name).isSome) ∧
    ∃ q, MLPipeline.update_tunable_hyperparams pAB
        [{ step_name := "beta", param_name := "lr", value := 100 }] = (q, none) ∧
      q.dataflow = pAB.dataflow ∧
      ∀ n, Dict.get? q.steps_dict n = (Dict.get? pAB.steps_dict n).map
        (fun st => { st with
          tunable_hyperparams := overwriteTunables
            [{ step_name := "beta", param_name := "lr", value := 100 }] n
            st.tunable_hyperparams,
          model := { cls := st.model.cls,
                     config := ModelConfig.fromTunable
                       (overwriteTunables
                         [{ step_name := "beta", param_name := "lr", value := 100 }] n
                         st.tunable_hyperparams) } }) :=
  ⟨by decide, update_tunable_overwrites_then_rebuilds_all pAB
    [{ step_name := "beta", param_name := "lr", value := 100 }] (by decide)⟩

/-! ### Fixed hyperparameter updates -/

/-- Counterexample to claim C4 as stated: on [`pAB`], updating
`("alpha", "fa")` and then the absent step `"ghost"` raises the lookup
error, but `"alpha"`'s fixed hyperparameters have already been changed,
so the pipeline's state is not as before the call. -/
theorem update_fixed_partial_change_counterexample :
    (MLPipeline.update_fixed_hyperparams pAB
      [(("alpha", "fa"), 99), (("ghost", "x"), 1)]).2 = some "ghost" ∧
    ¬ ((Dict.get? (MLPipeline.update_fixed_hyperparams pAB
          [(("alpha", "fa"), 99), (("ghost", "x"), 1)]).1.steps_dict "alpha").map
        (fun st => st.fixed_hyperparams) =
      (Dict.get? pAB.steps_dict "alpha").map (fun st => st.fixed_hyperparams)) := by
  exact ⟨by decide, by decide⟩

/-- Claim C4 amended: `update_fixed_hyperparams` with a mapping whose
first entry naming an absent step comes after `pre` fails with a lookup
error naming that step; the entries of `pre` (all naming present steps)
are applied exactly as a call with only `pre` would apply them, and the
entries from the offending key on are not applied. In particular, when
the offending key is the first entry, no changes are made at all. -/
theorem update_fixed_fails_after_prefix {D Y V : Type} :
    ∀ (pre : List ((String × String) × V)) (p : MLPipeline D Y V)
      (post : List ((String × String) × V)) (s h2 : String) (v : V),
    (∀ e ∈ pre, (Dict.get? p.steps_dict e.1.1).isSome) →
    Dict.get? p.steps_dict s = none →
    MLPipeline.update_fixed_hyperparams p (pre ++ ((s, h2), v) :: post) =
      ((MLPipeline.update_fixed_hyperparams p pre).1, some s) := by
  intro pre
  induction pre with
  | nil =>
    intro p post s h2 v _ hs
    show updateFixedLoop p (((s, h2), v) :: post) = ((updateFixedLoop p []).1, some s)
    simp only [updateFixedLoop, hs]
  | cons e rest ih =>
    intro p post s h2 v hpre hs
    obtain ⟨⟨sn, hn⟩, v2⟩ := e
    obtain ⟨step, hstep⟩ := Option.isSome_iff_exists.mp
      (hpre _ (List.mem_cons_self _ _))
    show updateFixedLoop p ((((sn, hn), v2) :: rest) ++ ((s, h2), v) :: post) =
      ((updateFixedLoop p (((sn, hn), v2) :: rest)).1, some s)
    rw [List.cons_append]
    simp only [updateFixedLoop, hstep]
    refine ih _ post s h2 v (fun e2 he2 => ?_) ?_
    · rw [Dict.get?_set]
      by_cases hc : sn = e2.1.1
      · simp [hc]
      · simp only [if_neg hc]
        exact hpre e2 (List.mem_cons_of_mem _ he2)
    · rw [Dict.get?_set]
      have hc : ¬ sn = s := by
        intro hc
        rw [hc, hs] at hstep
        cases hstep
      rw [if_neg hc]
      exact hs

/-- Witness for the amended C4 on [`pAB`] with a nonempty applied
prefix. -/
theorem update_fixed_fails_after_prefix_witness :
    (∀ e ∈ ([(("alpha", "fa"), 99)] : List ((String × String) × Int)),
      (Dict.get? pAB.steps_dict e.1.1).isSome) ∧
    Dict.get? pAB.steps_dict "ghost" = none ∧
    MLPipeline.update_fixed_hyperparams pAB
        [(("alpha", "fa"), 99), (("ghost", "x"), 1)] =
      ((MLPipeline.update_fixed_hyperparams pAB [(("alpha", "fa"), 99)]).1,
        some "ghost") :=
  ⟨by decide, by rfl,
    update_fixed_fails_after_prefix [(("alpha", "fa"), 99)] pAB [] "ghost" "x" 1
      (by decide) (by rfl)⟩

/-! ### The tunable round trip: membership, no-op overwrites, rebuilds -/

theorem mem_get_tunable_aux {D Y V : Type} (hp : MLHyperparam V) :
    ∀ (l : List (String × MLBlock D Y V)) (acc : List (MLHyperparam V)),
    (hp ∈ l.foldl (fun acc2 e => acc2 ++ e.2.tunable_hyperparams.map Prod.snd) acc ↔
      hp ∈ acc ∨ ∃ e ∈ l, ∃ hv ∈ e.2.tunable_hyperparams, hv.2 = hp) := by
  intro l
  induction l with
  | nil =>
    intro acc
    simp
  | cons e rest ih =>
    intro acc
    rw [List.foldl_cons, ih]
    simp only [List.mem_append, List.mem_map, List.mem_cons]
    constructor
    · rintro (((ha | ⟨hv, hhv, rfl⟩) | ⟨e2, he2, hv, hhv, rfl⟩))
      · exact Or.inl ha
      · exact Or.inr ⟨e, Or.inl rfl, hv, hhv, rfl⟩
      · exact Or.inr ⟨e2, Or.inr he2, hv, hhv, rfl⟩
    · rintro (ha | ⟨e2, (rfl | he2), hv, hhv, rfl⟩)
      · exact Or.inl (Or.inl ha)
      · exact Or.inl (Or.inr ⟨hv, hhv, rfl⟩)
      · exact Or.inr ⟨e2, he2, hv, hhv, rfl⟩

theorem mem_get_tunable_iff {D Y V : Type} (p : MLPipeline D Y V)
    (hp : MLHyperparam V) :
    hp ∈ MLPipeline.get_tunable_hyperparams p ↔
      ∃ e ∈ p.steps_dict, ∃ hv ∈ e.2.tunable_hyperparams, hv.2 = hp := by
  show hp ∈ p.steps_dict.foldl
      (fun acc e => acc ++ e.2.tunable_hyperparams.map Prod.snd) [] ↔ _
  rw [mem_get_tunable_aux]
  simp

theorem updateTunableLoop_noop {D Y V : Type} :
    ∀ (hps : List (MLHyperparam V)) (p : MLPipeline D Y V),
    (p.steps_dict.map Prod.fst).Nodup →
    (∀ hp ∈ hps, ∃ st, Dict.get? p.steps_dict hp.step_name = some st ∧
      (st.tunable_hyperparams.map Prod.fst).Nodup ∧
      Dict.get? st.tunable_hyperparams hp.param_name = some hp) →
    updateTunableLoop p hps = (p, none) := by
  intro hps
  induction hps with
  | nil =>
    intro p _ _
    rfl
  | cons hp rest ih =>
    intro p hnd h
    obtain ⟨st, hst, htn, hhp⟩ := h hp (List.mem_cons_self _ _)
    have hset : Dict.set st.tunable_hyperparams hp.param_name hp =
        st.tunable_hyperparams :=
      Dict.set_eq_self_of_get? htn hhp
    have hstep : ({ st with tunable_hyperparams :=
        (Dict.set st.tunable_hyperparams hp.param_name hp) } : MLBlock D Y V) = st := by
      rw [hset]
    have hred : updateTunableLoop p (hp :: rest) = updateTunableLoop p rest := by
      simp only [updateTunableLoop, hst]
      congr 1
      rw [hstep, Dict.set_eq_self_of_get? hnd hst]
    rw [hred]
    exact ih p hnd (fun hp2 hm => h hp2 (List.mem_cons_of_mem _ hm))

theorem get_tunable_noop_condition {D Y V : Type} (p : MLPipeline D Y V)
    (h : MLPipeline.WellFormed p) :
    ∀ hp ∈ MLPipeline.get_tunable_hyperparams p,
      ∃ st, Dict.get? p.steps_dict hp.step_name = some st ∧
        (st.tunable_hyperparams.map Prod.fst).Nodup ∧
        Dict.get? st.tunable_hyperparams hp.param_name = some hp := by
  intro hp hmem
  obtain ⟨e, he, hv, hhv, rfl⟩ := (mem_get_tunable_iff p hp).mp hmem
  obtain ⟨hname, hfix, htun, hprop⟩ := h.2 e he
  obtain ⟨hsn, hpn⟩ := hprop hv hhv
  refine ⟨e.2, ?_, htun, ?_⟩
  · rw [hsn]
    exact Dict.get?_of_mem_nodup h.1 he
  · rw [hpn]
    exact Dict.get?_of_mem_nodup htun hhv

theorem update_tunable_noop_rebuild {D Y V : Type} (p : MLPipeline D Y V)
    (hps : List (MLHyperparam V))
    (hnd : (p.steps_dict.map Prod.fst).Nodup)
    (h : ∀ hp ∈ hps, ∃ st, Dict.get? p.steps_dict hp.step_name = some st ∧
      (st.tunable_hyperparams.map Prod.fst).Nodup ∧
      Dict.get? st.tunable_hyperparams hp.param_name = some hp) :
    MLPipeline.update_tunable_hyperparams p hps = (rebuildAllModels p, none) := by
  unfold MLPipeline.update_tunable_hyperparams
  rw [updateTunableLoop_noop hps p hnd h]

theorem keys_rebuildAllModels {D Y V : Type} (p : MLPipeline D Y V) :
    (rebuildAllModels p).steps_dict.map Prod.fst = p.steps_dict.map Prod.fst := by
  show (p.steps_dict.map (fun e => (e.1, rebuildStep e.2))).map Prod.fst = _
  rw [List.map_map]
  rfl

theorem wellFormed_rebuildAllModels {D Y V : Type} {p : MLPipeline D Y V}
    (h : MLPipeline.WellFormed p) :
    MLPipeline.WellFormed (rebuildAllModels p) := by
  obtain ⟨h1, h2⟩ := h
  constructor
  · rw [keys_rebuildAllModels]
    exact h1
  · intro e he
    obtain ⟨e0, he0, rfl⟩ := List.mem_map.mp he
    obtain ⟨hn, hf, ht, hhv⟩ := h2 e0 he0
    exact ⟨hn, hf, ht, hhv⟩

theorem get_tunable_rebuildAllModels {D Y V : Type} (p : MLPipeline D Y V) :
    MLPipeline.get_tunable_hyperparams (rebuildAllModels p) =
      MLPipeline.get_tunable_hyperparams p := by
  show (p.steps_dict.map (fun e => (e.1, rebuildStep e.2))).foldl
      (fun acc e => acc ++ e.2.tunable_hyperparams.map Prod.snd) [] =
    p.steps_dict.foldl
      (fun acc e => acc ++ e.2.tunable_hyperparams.map Prod.snd) []
  generalize ([] : List (MLHyperparam V)) = acc
  induction p.steps_dict generalizing acc with
  | nil => rfl
  | cons e rest ih =>
    rw [List.map_cons, List.foldl_cons, List.foldl_cons]
    exact ih _

theorem rebuildAllModels_idem {D Y V : Type} (p : MLPipeline D Y V) :
    rebuildAllModels (rebuildAllModels p) = rebuildAllModels p := by
  show ({ rebuildAllModels p with steps_dict :=
      ((p.steps_dict.map (fun e => (e.1, rebuildStep e.2))).map
        (fun e => (e.1, rebuildStep e.2))) } : MLPipeline D Y V) = _
  rw [List.map_map]
  rfl

/-- Claim C7: for every well-formed pipeline, `get_tunable_hyperparams`
followed by `update_tunable_hyperparams` with the returned, unmodified
hyperparameters is idempotent: the call succeeds and equals a pure
rebuild, every step's tunable hyperparameter map is unchanged, each
step's rebuilt model receives exactly that step's unchanged tunable map
(class preserved), and repeating the round trip leaves the pipeline
exactly as after the first round trip. -/
theorem get_then_update_tunable_idempotent {D Y V : Type}
    (p : MLPipeline D Y V) (h : MLPipeline.WellFormed p) :
    MLPipeline.update_tunable_hyperparams p
        (MLPipeline.get_tunable_hyperparams p) = (rebuildAllModels p, none) ∧
    (∀ n, (Dict.get? (rebuildAllModels p).steps_dict n).map
        (fun st => st.tunable_hyperparams) =
      (Dict.get? p.steps_dict n).map (fun st => st.tunable_hyperparams)) ∧
    (∀ n st st2, Dict.get? p.steps_dict n = some st →
      Dict.get? (rebuildAllModels p).steps_dict n = some st2 →
      st2.model.cls = st.model.cls ∧
      st2.model.config = ModelConfig.fromTunable st.tunable_hyperparams) ∧
    MLPipeline.update_tunable_hyperparams (rebuildAllModels p)
        (MLPipeline.get_tunable_hyperparams (rebuildAllModels p)) =
      (rebuildAllModels p, none) := by
  have h1 := update_tunable_noop_rebuild p _ h.1 (get_tunable_noop_condition p h)
  refine ⟨h1, fun n => ?_, fun n st st2 hst hst2 => ?_, ?_⟩
  · rw [get?_rebuildAllModels]
    cases Dict.get? p.steps_dict n <;> rfl
  · rw [get?_rebuildAllModels, hst] at hst2
    simp only [Option.map_some'] at hst2
    obtain rfl := Option.some.inj hst2
    exact ⟨rfl, rfl⟩
  · have h2 := update_tunable_noop_rebuild (rebuildAllModels p) _
      (wellFormed_rebuildAllModels h).1
      (get_tunable_noop_condition _ (wellFormed_rebuildAllModels h))
    rw [h2, rebuildAllModels_idem]

/-- Witness for C7 on [`pAB`]. -/
theorem get_then_update_tunable_idempotent_witness :
    MLPipeline.WellFormed pAB ∧
    (MLPipeline.update_tunable_hyperparams pAB
        (MLPipeline.get_tunable_hyperparams pAB) = (rebuildAllModels pAB, none) ∧
    (∀ n, (Dict.get? (rebuildAllModels pAB).steps_dict n).map
        (fun st => st.tunable_hyperparams) =
      (Dict.get? pAB.steps_dict n).map (fun st => st.tunable_hyperparams)) ∧
    (∀ n st st2, Dict.get? pAB.steps_dict n = some st →
      Dict.get? (rebuildAllModels pAB).steps_dict n = some st2 →
      st2.model.cls = st.model.cls ∧
      st2.model.config = ModelConfig.fromTunable st.tunable_hyperparams) ∧
    MLPipeline.update_tunable_hyperparams (rebuildAllModels pAB)
        (MLPipeline.get_tunable_hyperparams (rebuildAllModels pAB)) =
      (rebuildAllModels pAB, none)) :=
  ⟨by decide, get_then_update_tunable_idempotent pAB (by decide)⟩

theorem applyFlatValue_step_name {V : Type} (d : Dict String V)
    (hp : MLHyperparam V) :
    (applyFlatValue d hp).step_name = hp.step_name := by
  unfold applyFlatValue
  cases Dict.get? d hp.param_name <;> rfl

theorem applyFlatValue_param_name {V : Type} (d : Dict String V)
    (hp : MLHyperparam V) :
    (applyFlatValue d hp).param_name = hp.param_name := by
  unfold applyFlatValue
  cases Dict.get? d hp.param_name <;> rfl

/-- Claim C6: `set_from_hyperparam_dict(d)` overwrites, across all steps,
the value of every tunable hyperparameter whose `param_name` is a key of
`d` with `d`'s value for it, then runs the full
tunable-update-and-rebuild path; every step ends in its
[`flatUpdateStep`] form (values overwritten where named, model rebuilt
from the resulting tunable map). In particular on [`pAB`], where both
steps expose `"lr"`, `d = [("lr", 42)]` sets both `"lr"` values to 42
(broadcast). -/
theorem set_from_hyperparam_dict_broadcasts :
    (∀ (D Y V : Type) (p : MLPipeline D Y V) (d : Dict String V),
      MLPipeline.WellFormed p →
      ∃ q, MLPipeline.set_from_hyperparam_dict p d = (q, none) ∧
        q.dataflow = p.dataflow ∧
        ∀ n, Dict.get? q.steps_dict n =
          (Dict.get? p.steps_dict n).map (flatUpdateStep d)) ∧
    ((MLPipeline.set_from_hyperparam_dict pAB [("lr", 42)]).1.steps_dict.map
      (fun e => (e.1, e.2.tunable_hyperparams.map (fun hv => (hv.1, hv.2.value))))) =
      [("alpha", [("lr", 42), ("k", 3)]), ("beta", [("lr", 42)])] := by
  refine ⟨?_, by decide⟩
  intro D Y V p d h
  have hupd : ∀ n,
      Dict.get? (p.steps_dict.map (fun e =>
        (e.1, ({ e.2 with tunable_hyperparams :=
          (e.2.tunable_hyperparams.map (fun hv : String × MLHyperparam V => (hv.1, applyFlatValue d hv.2))) } : MLBlock D Y V)))) n =
      (Dict.get? p.steps_dict n).map (fun st =>
        { st with tunable_hyperparams :=
          st.tunable_hyperparams.map (fun hv : String × MLHyperparam V => (hv.1, applyFlatValue d hv.2)) }) := by
    intro n
    have := Dict.get?_map_values (fun _ st =>
      ({ st with tunable_hyperparams :=
        st.tunable_hyperparams.map (fun hv : String × MLHyperparam V => (hv.1, applyFlatValue d hv.2)) }
        : MLBlock D Y V)) p.steps_dict n
    simpa using this
  have hnd2 : ((p.steps_dict.map (fun e =>
      (e.1, ({ e.2 with tunable_hyperparams :=
        (e.2.tunable_hyperparams.map (fun hv : String × MLHyperparam V => (hv.1, applyFlatValue d hv.2))) } : MLBlock D Y V)))).map
      Prod.fst).Nodup := by
    rw [List.map_map]
    exact h.1
  have hcond : ∀ hp2 ∈ (MLPipeline.get_tunable_hyperparams p).map (applyFlatValue d),
      ∃ st, Dict.get? (p.steps_dict.map (fun e =>
        (e.1, ({ e.2 with tunable_hyperparams :=
          (e.2.tunable_hyperparams.map (fun hv : String × MLHyperparam V => (hv.1, applyFlatValue d hv.2))) } : MLBlock D Y V)))) hp2.step_name = some st ∧
        (st.tunable_hyperparams.map Prod.fst).Nodup ∧
        Dict.get? st.tunable_hyperparams hp2.param_name = some hp2 := by
    intro hp2 hm
    obtain ⟨hp, hmem, rfl⟩ := List.mem_map.mp hm
    obtain ⟨e, he, hv, hhv, rfl⟩ := (mem_get_tunable_iff p hp).mp hmem
    obtain ⟨hname, hfix, htun, hprop⟩ := h.2 e he
    obtain ⟨hsn, hpn⟩ := hprop hv hhv
    refine ⟨{ e.2 with tunable_hyperparams :=
      e.2.tunable_hyperparams.map (fun hv2 => (hv2.1, applyFlatValue d hv2.2)) }, ?_, ?_, ?_⟩
    · rw [applyFlatValue_step_name, hsn, hupd e.1,
        Dict.get?_of_mem_nodup h.1 he]
      rfl
    · show ((e.2.tunable_hyperparams.map (fun hv2 => (hv2.1, applyFlatValue d hv2.2))).map
        Prod.fst).Nodup
      rw [List.map_map]
      exact htun
    · show Dict.get? (e.2.tunable_hyperparams.map (fun hv2 => (hv2.1, applyFlatValue d hv2.2)))
        (applyFlatValue d hv.2).param_name = some (applyFlatValue d hv.2)
      rw [applyFlatValue_param_name, hpn]
      have := Dict.get?_map_values (fun _ hp3 => applyFlatValue d hp3)
        e.2.tunable_hyperparams hv.1
      rw [show (fun e2 : String × MLHyperparam V =>
          (e2.1, applyFlatValue d e2.2)) = (fun hv2 : String × MLHyperparam V =>
          (hv2.1, applyFlatValue d hv2.2)) from rfl] at this
      rw [this, Dict.get?_of_mem_nodup htun hhv]
      rfl
  have hrun := update_tunable_noop_rebuild
    { p with steps_dict := p.steps_dict.map (fun e =>
        (e.1, ({ e.2 with tunable_hyperparams :=
          (e.2.tunable_hyperparams.map (fun hv : String × MLHyperparam V => (hv.1, applyFlatValue d hv.2))) } : MLBlock D Y V))) }
    ((MLPipeline.get_tunable_hyperparams p).map (applyFlatValue d)) hnd2 hcond
  refine ⟨_, hrun, rfl, fun n => ?_⟩
  rw [get?_rebuildAllModels]
  show (Dict.get? (p.steps_dict.map (fun e =>
    (e.1, ({ e.2 with tunable_hyperparams :=
      (e.2.tunable_hyperparams.map (fun hv : String × MLHyperparam V => (hv.1, applyFlatValue d hv.2))) } : MLBlock D Y V)))) n).map
    rebuildStep = _
  rw [hupd n]
  cases Dict.get? p.steps_dict n <;> rfl

/-- Witness for C6's general part on [`pAB`]. -/
theorem set_from_hyperparam_dict_broadcasts_witness :
    MLPipeline.WellFormed pAB ∧
    (∃ q, MLPipeline.set_from_hyperparam_dict pAB [("lr", 42)] = (q, none) ∧
      q.dataflow = pAB.dataflow ∧
      ∀ n, Dict.get? q.steps_dict n =
        (Dict.get? pAB.steps_dict n).map (flatUpdateStep [("lr", 42)])) :=
  ⟨by decide,
    set_from_hyperparam_dict_broadcasts.1 Int Int Int pAB [("lr", 42)] (by decide)⟩

/-! ### Reading fixed hyperparameters -/

theorem Dict.mem_set {α β : Type} [DecidableEq α] {d : Dict α β} {k : α}
    {v : β} {e : α × β} (he : e ∈ Dict.set d k v) : e ∈ d ∨ e = (k, v) := by
  induction d with
  | nil =>
    simp only [Dict.set] at he
    rcases List.mem_cons.mp he with h | h
    · exact Or.inr h
    · simp at h
  | cons a rest ih =>
    by_cases h : a.1 = k
    · simp only [Dict.set, if_pos h] at he
      rcases List.mem_cons.mp he with h2 | h2
      · exact Or.inr h2
      · exact Or.inl (List.mem_cons_of_mem _ h2)
    · simp only [Dict.set, if_neg h] at he
      rcases List.mem_cons.mp he with h2 | h2
      · exact Or.inl (h2 ▸ List.mem_cons_self a rest)
      · rcases ih h2 with h3 | h3
        · exact Or.inl (List.mem_cons_of_mem _ h3)
        · exact Or.inr h3

theorem get?_get_fixed_aux {D Y V : Type} :
    ∀ (steps : Dict String (MLBlock D Y V)) (acc : Dict (String × String) V)
      (s pr : String),
    (steps.map Prod.fst).Nodup →
    (∀ e ∈ steps, e.2.name = e.1 ∧ (e.2.fixed_hyperparams.map Prod.fst).Nodup) →
    Dict.get? (steps.foldl (fun acc2 e => e.2.fixed_hyperparams.foldl
        (fun acc3 hv => Dict.set acc3 (e.2.name, hv.1) hv.2) acc2) acc) (s, pr) =
      (match Dict.get? steps s with
        | some st => Option.or (Dict.get? st.fixed_hyperparams pr)
            (Dict.get? acc (s, pr))
        | none => Dict.get? acc (s, pr)) := by
  intro steps
  induction steps with
  | nil =>
    intro acc s pr _ _
    rfl
  | cons e rest ih =>
    intro acc s pr hnd hprops
    rw [List.map_cons, List.nodup_cons] at hnd
    obtain ⟨hname, hfnd⟩ := hprops e (List.mem_cons_self _ _)
    rw [List.foldl_cons,
      ih _ s pr hnd.2 (fun e2 he2 => hprops e2 (List.mem_cons_of_mem _ he2))]
    have hinner : Dict.get? (e.2.fixed_hyperparams.foldl
        (fun acc3 hv => Dict.set acc3 (e.2.name, hv.1) hv.2) acc) (s, pr) =
        if e.2.name = s then
          Option.or (Dict.get? e.2.fixed_hyperparams pr) (Dict.get? acc (s, pr))
        else Dict.get? acc (s, pr) := by
      rw [Dict.get?_foldl_set (fun hv : String × V => (e.2.name, hv.1))
        (fun hv : String × V => hv.2) e.2.fixed_hyperparams acc (s, pr)]
      by_cases hc : e.2.name = s
      · subst hc
        rw [if_pos rfl]
        have hpred : (fun hv : String × V =>
            decide ((e.2.name, hv.1) = (e.2.name, pr))) =
            (fun hv : String × V => decide (hv.1 = pr)) := by
          funext hv
          simp [Prod.ext_iff]
        rw [hpred, find?_reverse_of_nodup Prod.fst pr hfnd, ← Dict.get?_eq_find?]
      · rw [if_neg hc]
        have hnone : (e.2.fixed_hyperparams.reverse.find?
            (fun hv : String × V => decide ((e.2.name, hv.1) = (s, pr)))) = none := by
          rw [List.find?_eq_none]
          intro x hx
          simp [Prod.ext_iff, hc]
        rw [hnone]
        rfl
    rw [hinner]
    by_cases hc : e.1 = s
    · have hrest_none : Dict.get? rest s = none := by
        rw [Dict.get?_eq_none_iff, ← hc]
        exact hnd.1
      rw [hrest_none, if_pos (hname.trans hc)]
      simp [Dict.get?, hc]
    · have hc2 : ¬ e.2.name = s := fun hcc => hc (hname ▸ hcc)
      rw [if_neg hc2]
      simp only [Dict.get?, if_neg hc]

theorem get?_get_fixed {D Y V : Type} (p : MLPipeline D Y V) (s pr : String)
    (hnd : (p.steps_dict.map Prod.fst).Nodup)
    (hprops : ∀ e ∈ p.steps_dict,
      e.2.name = e.1 ∧ (e.2.fixed_hyperparams.map Prod.fst).Nodup) :
    Dict.get? (MLPipeline.get_fixed_hyperparams p) (s, pr) =
      (Dict.get? p.steps_dict s).bind
        (fun st => Dict.get? st.fixed_hyperparams pr) := by
  show Dict.get? (p.steps_dict.foldl (fun acc e => e.2.fixed_hyperparams.foldl
    (fun acc2 hv => Dict.set acc2 (e.2.name, hv.1) hv.2) acc) []) (s, pr) = _
  rw [get?_get_fixed_aux p.steps_dict [] s pr hnd hprops]
  cases Dict.get? p.steps_dict s with
  | none => rfl
  | some st =>
    show Option.or (Dict.get? st.fixed_hyperparams pr) (Dict.get? [] (s, pr)) =
      Dict.get? st.fixed_hyperparams pr
    cases Dict.get? st.fixed_hyperparams pr <;> rfl

/-- Claim C5: on a well-formed pipeline containing a step named `s`,
`update_fixed_hyperparams` with the single entry `((s, pr), v)` succeeds,
a following `get_fixed_hyperparams()` returns `v` at key `(s, pr)`, and
every other `(step name, param name)` entry of `get_fixed_hyperparams()`
is unchanged from before the update. -/
theorem update_fixed_then_get_fixed {D Y V : Type} (p : MLPipeline D Y V)
    (s pr : String) (v : V) (st : MLBlock D Y V)
    (hWF : MLPipeline.WellFormed p)
    (hs : Dict.get? p.steps_dict s = some st) :
    (MLPipeline.update_fixed_hyperparams p [((s, pr), v)]).2 = none ∧
    Dict.get? (MLPipeline.get_fixed_hyperparams
      (MLPipeline.update_fixed_hyperparams p [((s, pr), v)]).1) (s, pr) = some v ∧
    ∀ s2 pr2, ¬ (s2, pr2) = (s, pr) →
      Dict.get? (MLPipeline.get_fixed_hyperparams
        (MLPipeline.update_fixed_hyperparams p [((s, pr), v)]).1) (s2, pr2) =
      Dict.get? (MLPipeline.get_fixed_hyperparams p) (s2, pr2) := by
  have hmem : (s, st) ∈ p.steps_dict := Dict.get?_some_mem hs
  obtain ⟨hstname, hstfix, hsttun, hstprop⟩ := hWF.2 (s, st) hmem
  have hq : MLPipeline.update_fixed_hyperparams p [((s, pr), v)] =
      ({ p with steps_dict :=
        (Dict.set p.steps_dict s
          ({ st with
            fixed_hyperparams := Dict.set st.fixed_hyperparams pr v,
            model := { cls := st.model.cls,
                       config := (ModelConfig.fromFull
                         (Dict.set st.fixed_hyperparams pr v) st.tunable_hyperparams) } })) },
        none) := by
    show updateFixedLoop p [((s, pr), v)] = _
    simp only [updateFixedLoop, hs, MLBlock.update_model]
  have hprops : ∀ e ∈ p.steps_dict,
      e.2.name = e.1 ∧ (e.2.fixed_hyperparams.map Prod.fst).Nodup :=
    fun e he => ⟨(hWF.2 e he).1, (hWF.2 e he).2.1⟩
  have hqprops : ∀ e ∈ (MLPipeline.update_fixed_hyperparams p [((s, pr), v)]).1.steps_dict,
      e.2.name = e.1 ∧ (e.2.fixed_hyperparams.map Prod.fst).Nodup := by
    rw [hq]
    intro e he
    rcases Dict.mem_set he with h2 | h2
    · exact hprops e h2
    · subst h2
      exact ⟨hstname, Dict.keys_set_nodup pr v hstfix⟩
  have hqnd : ((MLPipeline.update_fixed_hyperparams p [((s, pr), v)]).1.steps_dict.map
      Prod.fst).Nodup := by
    rw [hq]
    exact Dict.keys_set_nodup _ _ hWF.1
  refine ⟨by rw [hq], ?_, fun s2 pr2 hne => ?_⟩
  · rw [get?_get_fixed _ s pr hqnd hqprops, hq]
    show (Dict.get? (Dict.set p.steps_dict s _) s).bind _ = some v
    rw [Dict.get?_set, if_pos rfl]
    show Dict.get? (Dict.set st.fixed_hyperparams pr v) pr = some v
    rw [Dict.get?_set, if_pos rfl]
  · rw [get?_get_fixed _ s2 pr2 hqnd hqprops,
      get?_get_fixed p s2 pr2 hWF.1 hprops, hq]
    show (Dict.get? (Dict.set p.steps_dict s _) s2).bind _ = _
    rw [Dict.get?_set]
    by_cases hc : s = s2
    · subst hc
      rw [if_pos rfl, hs]
      show Dict.get? (Dict.set st.fixed_hyperparams pr v) pr2 =
        Dict.get? st.fixed_hyperparams pr2
      have hc2 : ¬ pr = pr2 := by
        intro hc2
        exact hne (by rw [hc2])
      rw [Dict.get?_set, if_neg hc2]
    · rw [if_neg hc]

/-- Witness for C5 on [`pAB`]: updating `("alpha", "fa")` to 77. -/
theorem update_fixed_then_get_fixed_witness :
    MLPipeline.WellFormed pAB ∧
    Dict.get? pAB.steps_dict "alpha" = some stepA ∧
    ((MLPipeline.update_fixed_hyperparams pAB [(("alpha", "fa"), 77)]).2 = none ∧
    Dict.get? (MLPipeline.get_fixed_hyperparams
      (MLPipeline.update_fixed_hyperparams pAB [(("alpha", "fa"), 77)]).1)
      ("alpha", "fa") = some 77 ∧
    ∀ s2 pr2, ¬ (s2, pr2) = ("alpha", "fa") →
      Dict.get? (MLPipeline.get_fixed_hyperparams
        (MLPipeline.update_fixed_hyperparams pAB [(("alpha", "fa"), 77)]).1) (s2, pr2) =
      Dict.get? (MLPipeline.get_fixed_hyperparams pAB) (s2, pr2)) :=
  ⟨by decide, by rfl,
    update_fixed_then_get_fixed pAB "alpha" "fa" 77 stepA (by decide) (by rfl)⟩

end MLBlocks
